import Mathlib

/-!
# Verification of the Bitbucket Pipelines Local Runner engine

Shallow embedding of the runner's core logic (yaml-parser transforms,
pipeline selection, scheduler, environment assembly, cache store protocol,
artifact step-name sanitization) together with proofs about the embedded
definitions.

JavaScript objects with string values are modelled as insertion-ordered
association lists; `undefined`/`null` record values are modelled as
`Option.none`.
-/

namespace BBPL

/-- First-some choice on options (JS `a || b` for object-or-undefined values,
and the helper used to state "last non-empty value wins" facts). -/
def optOr {α : Type} (a b : Option α) : Option α :=
  match a with
  | some x => some x
  | none => b

/-- JS truthiness of a `string | undefined` value: `undefined` and the empty
string are falsy. -/
def truthyStr (v : Option String) : Bool :=
  match v with
  | none => false
  | some s => s ≠ ""

/-- An insertion-ordered JavaScript object whose values are strings
(`Record<string, string>`). -/
abbrev Obj := List (String × String)

/-- `m[k]` on a JS object (first entry wins; objects built by `objSet`
never hold duplicate keys). -/
def objGet (m : Obj) (k : String) : Option String :=
  match m with
  | [] => none
  | p :: rest => if p.1 == k then some p.2 else objGet rest k

/-- `m[k] = v` on a JS object: replace the existing entry in place, else
append. -/
def objSet (m : Obj) (k v : String) : Obj :=
  if m.any (fun p => p.1 == k) then
    m.map (fun p => if p.1 == k then (k, v) else p)
  else
    m ++ [(k, v)]

/-- `Object.assign(target, src)`: copy every entry of `src` over `target`. -/
def objAssign (target src : Obj) : Obj :=
  src.foldl (fun acc p => objSet acc p.1 p.2) target

/-! ## Environment sources (`EnvironmentManager`, `src/src/index.ts`) -/

/-- One source environment object, entries in insertion order. A source's
values may at runtime be `undefined`/`null` (the merge guards against
them), modelled as `Option String`. -/
abbrev EnvSrc := List (String × Option String)

/-- The guard of `mergeEnvironments`:
`value !== undefined && value !== null && value !== ''`. -/
def entryNonEmpty (v : Option String) : Bool :=
  match v with
  | none => false
  | some s => s ≠ ""

/-- Merge one source environment into the accumulated object: for each entry
in order, `if (…non-empty…) merged[key] = value`. -/
def mergeIntoOne (m : Obj) (env : EnvSrc) : Obj :=
  env.foldl (fun acc p =>
    match p.2 with
    | some v => if v ≠ "" then objSet acc p.1 v else acc
    | none => acc) m

/-- `EnvironmentManager.mergeEnvironments(...envs)`: right-biased merge into a
fresh object, skipping `undefined`/`null`/`''` values. -/
def mergeEnvironments (envs : List EnvSrc) : Obj :=
  envs.foldl mergeIntoOne []

/-- The last non-empty value a single source assigns to key `k`. -/
def lastNonEmptyVal (env : EnvSrc) (k : String) : Option String :=
  env.foldl (fun acc p =>
    match p.2 with
    | some v => if p.1 = k ∧ v ≠ "" then some v else acc
    | none => acc) none

/-- Spec-level precedence: the effective value of `k` is the last non-empty
value assigned by the highest-precedence (rightmost) source that
non-emptily assigns `k`. -/
def lastNonEmptyAcross : List EnvSrc → String → Option String
  | [], _ => none
  | env :: rest, k => optOr (lastNonEmptyAcross rest k) (lastNonEmptyVal env k)

/-- A fully-defined `Record<string,string>` viewed as a source environment. -/
def liftObj (m : Obj) : EnvSrc := m.map (fun p => (p.1, some p.2))

/-- The `PipelineContext` built by `createExecutionContext`. -/
structure PipelineContext where
  branch : String
  commit : String
  buildNumber : Nat
  repoName : String
  workspace : String
  repoSlug : String
  repoUuid : String
  stepName : Option String

/-- `EnvironmentManager.loadEnvironment(envFile?)`: pushes, in order, the
process environment, `<cwd>/.env` (when readable), the user-specified env
file (when given and readable), `<cwd>/.env.pipelines` (when readable) and
`config.bitbucketVariables` (when configured), then merges them
right-biased. Each optional file parameter is `none` when the file is
absent/unreadable (or, for `customEnv`, when no `--env-file` was given). -/
def loadEnvironment (processEnv : EnvSrc)
    (defaultEnv customEnv pipelineEnv : Option Obj)
    (configVars : Option Obj) : Obj :=
  mergeEnvironments
    ([processEnv]
      ++ (match defaultEnv with | some e => [liftObj e] | none => [])
      ++ (match customEnv with | some e => [liftObj e] | none => [])
      ++ (match pipelineEnv with | some e => [liftObj e] | none => [])
      ++ (match configVars with | some e => [liftObj e] | none => []))

/-- `EnvironmentManager.getBitbucketVariables(context)`: the computed system
variables, in source order, with the non-deterministic parts (UUIDs,
execution id/time) passed in as parameters; followed by
`Object.assign(variables, config.bitbucketVariables, variables)` when
default variables are configured. The third `Object.assign` argument
aliases the already-mutated target object, so that self-copy is a no-op:
the net effect is a single assignment of the configured defaults over the
computed variables, and configured values win on shared keys. -/
def getBitbucketVariables (context : PipelineContext)
    (pipelineUuid stepUuid triggererUuid execId execTime : String)
    (configVars : Option Obj) : Obj :=
  let vars : Obj :=
    [("BITBUCKET_WORKSPACE", context.workspace),
     ("BITBUCKET_REPO_SLUG", context.repoSlug),
     ("BITBUCKET_REPO_UUID", context.repoUuid),
     ("BITBUCKET_REPO_FULL_NAME",
       context.workspace ++ "/" ++ context.repoSlug),
     ("BITBUCKET_BUILD_NUMBER", toString context.buildNumber),
     ("BITBUCKET_COMMIT", context.commit),
     ("BITBUCKET_BRANCH", context.branch),
     ("BITBUCKET_PIPELINE_UUID", "\x7b" ++ pipelineUuid ++ "\x7d"),
     ("BITBUCKET_STEP_UUID",
       if truthyStr context.stepName then "\x7b" ++ stepUuid ++ "\x7d"
       else ""),
     ("BITBUCKET_STEP_TRIGGERER_UUID", "\x7b" ++ triggererUuid ++ "\x7d"),
     ("BITBUCKET_TAG", ""),
     ("BITBUCKET_BOOKMARK", ""),
     ("BITBUCKET_PR_ID", ""),
     ("BITBUCKET_PR_DESTINATION_BRANCH", ""),
     ("BITBUCKET_DEPLOYMENT_ENVIRONMENT", ""),
     ("BITBUCKET_CLONE_DIR", "/opt/atlassian/pipelines/agent/build"),
     ("BITBUCKET_PARALLEL_STEP", "false"),
     ("BITBUCKET_PARALLEL_STEP_COUNT", "1"),
     ("BITBUCKET_PIPELINES_LOCAL", "true"),
     ("BBPL_EXECUTION_ID", execId),
     ("BBPL_EXECUTION_TIME", execTime)]
  match configVars with
  | some cv => objAssign vars cv
  | none => vars

/-- The environment slice of `BitbucketPipelinesRunner.createExecutionContext`:
`mergeEnvironments(loadEnvironment(envFile), getBitbucketVariables(ctx))`.
Note that the step's own `variables` never enter this computation — the
runner builds one environment per run, before any step is known. -/
def createExecutionContextEnv (processEnv : EnvSrc)
    (defaultEnv customEnv pipelineEnv configVars : Option Obj)
    (context : PipelineContext)
    (pipelineUuid stepUuid triggererUuid execId execTime : String) : Obj :=
  mergeEnvironments
    [liftObj (loadEnvironment processEnv defaultEnv customEnv pipelineEnv
        configVars),
     liftObj (getBitbucketVariables context pipelineUuid stepUuid
        triggererUuid execId execTime configVars)]

/-! ## Document loader transforms (`YAMLParser`, `src/src/core/yaml-parser.ts`) -/

/-- JS `a || b` on two optional numbers (JS numbers `0`/`NaN` are falsy;
`0` is the falsy value representable here). -/
def jsOrNum (a b : Option Nat) : Option Nat :=
  match a with
  | some n => if n = 0 then b else some n
  | none => b

/-- JS `a || b` on two optional arrays (every array is truthy). -/
def jsOrArr {α : Type} (a b : Option (List α)) : Option (List α) :=
  match a with
  | some l => some l
  | none => b

/-- JS `a || b` on an optional string against a default (empty string is
falsy). -/
def jsStrOr (a : Option String) (b : String) : String :=
  match a with
  | some s => if s = "" then b else s
  | none => b

/-- A raw `script` value: either a single string or a list of strings. -/
inductive RawScript
  | str (s : String)
  | arr (l : List String)
deriving DecidableEq

/-- JS truthiness of the raw `script` field (`if (!step.script) throw`). -/
def scriptTruthy : Option RawScript → Bool
  | none => false
  | some (RawScript.str s) => s ≠ ""
  | some (RawScript.arr _) => true

/-- The raw mapping for a step as read from the document, restricted to the
fields the claims are about. The hyphenated and camel-cased key variants
are separate fields of the raw mapping. -/
structure RawStep where
  name : Option String
  script : Option RawScript
  maxTimeHyphen : Option Nat
  maxTimeCamel : Option Nat
  afterScriptHyphen : Option (List String)
  afterScriptCamel : Option (List String)
deriving DecidableEq

/-- The canonical step produced by `transformStep` (claim-relevant fields). -/
structure CanonStep where
  name : Option String
  script : List String
  maxTime : Option Nat
  afterScript : Option (List String)
deriving DecidableEq

/-- `YAMLParser.transformStep`: requires a truthy `script`, promotes a single
string to a one-element list, and resolves the key variants with
`step['max-time'] || step.maxTime` and
`step['after-script'] || step.afterScript`. -/
def transformStep (step : RawStep) : Except String CanonStep :=
  if scriptTruthy step.script then
    Except.ok
      { name := step.name
        script :=
          match step.script with
          | some (RawScript.arr l) => l
          | some (RawScript.str s) => [s]
          | none => []
        maxTime := jsOrNum step.maxTimeHyphen step.maxTimeCamel
        afterScript := jsOrArr step.afterScriptHyphen step.afterScriptCamel }
  else
    Except.error "Step must contain script"

/-- A raw `image` mapping (claim-relevant fields). -/
structure RawImageObj where
  name : Option String
  runAsUserHyphen : Option Nat
  runAsUserCamel : Option Nat
deriving DecidableEq

/-- A raw `image` value: string reference or structured mapping. -/
inductive RawImage
  | str (s : String)
  | obj (o : RawImageObj)
deriving DecidableEq

/-- The canonical image produced by `transformImage`. -/
inductive CanonImage
  | str (s : String)
  | obj (name : String) (runAsUser : Option Nat)
deriving DecidableEq

/-- `YAMLParser.transformImage`: strings pass through; an object needs a
truthy `name` and resolves `image['run-as-user'] || image.runAsUser`. -/
def transformImage : RawImage → Except String CanonImage
  | RawImage.str s => Except.ok (CanonImage.str s)
  | RawImage.obj o =>
    match o.name with
    | some n =>
      if n ≠ "" then
        Except.ok (CanonImage.obj n (jsOrNum o.runAsUserHyphen o.runAsUserCamel))
      else Except.error "Invalid image configuration"
    | none => Except.error "Invalid image configuration"

/-- A raw `artifacts` value: bare list of strings, or object form. -/
inductive RawArtifacts
  | list (paths : List String)
  | obj (paths : Option (List String)) (download : Option Bool)
deriving DecidableEq

/-- The canonical artifacts configuration (`download` is an optional flag:
it is absent exactly when `transformArtifacts` does not set it). -/
structure CanonArtifacts where
  paths : List String
  download : Option Bool
deriving DecidableEq

/-- `YAMLParser.transformArtifacts`: a bare array yields `\x7b paths \x7d`
(no `download` key); the object form defaults `paths` to `[]` and sets
`download` to `artifacts.download !== false`. -/
def transformArtifacts : RawArtifacts → CanonArtifacts
  | RawArtifacts.list l => { paths := l, download := none }
  | RawArtifacts.obj p d =>
    { paths := p.getD [], download := some (decide (d ≠ some false)) }

/-! ## Pipeline model and selection (`src/src/core/runner.ts`) -/

/-- A runner-level step (claim-relevant fields). -/
structure Step where
  name : Option String
  script : List String
deriving DecidableEq

/-- A parallel group: `item.parallel` with `failFast` (default true) and the
member steps. -/
structure ParallelSteps where
  failFast : Bool
  steps : List Step
deriving DecidableEq

/-- A pipeline item is a step or a parallel group (the source discriminates
with the `isStep` / `isParallelSteps` type guards). -/
inductive PipelineItem
  | stepItem (s : Step)
  | parallelItem (g : ParallelSteps)
deriving DecidableEq

/-- A pipeline: ordered list of items. -/
abbrev Pipeline := List PipelineItem

/-- Generic keyed lookup in an insertion-ordered JS object. -/
def lookupKey {α : Type} (m : List (String × α)) (k : String) : Option α :=
  match m with
  | [] => none
  | p :: rest => if p.1 == k then some p.2 else lookupKey rest k

/-- The `pipelines` section of the canonical document. -/
structure PipelinesSection where
  default : Option Pipeline
  branches : Option (List (String × Pipeline))
  tags : Option (List (String × Pipeline))
  pullrequests : Option (List (String × Pipeline))
  custom : Option (List (String × Pipeline))

/-- The canonical document (claim-relevant part). -/
structure PipelineConfig where
  pipelines : PipelinesSection

/-- The CLI selection intent. -/
structure CLIOptions where
  pipeline : Option String
  branch : Option String
  custom : Option String

/-- `BitbucketPipelinesRunner.selectPipeline`: custom, then branch (falling
back to default), then explicit `pipeline` (only `"default"`), then the
default pipeline; `Except.error` carries the thrown message. -/
def selectPipeline (config : PipelineConfig) (options : CLIOptions) :
    Except String Pipeline :=
  if truthyStr options.custom then
    let c := options.custom.getD ""
    match config.pipelines.custom with
    | none => Except.error ("Custom pipeline not found: " ++ c)
    | some m =>
      match lookupKey m c with
      | none => Except.error ("Custom pipeline not found: " ++ c)
      | some p => Except.ok p
  else if truthyStr options.branch then
    let b := options.branch.getD ""
    match
      (match config.pipelines.branches with
       | none => none
       | some m => lookupKey m b) with
    | none =>
      match config.pipelines.default with
      | none =>
        Except.error
          ("No pipeline found for branch " ++ b ++ " and no default pipeline")
      | some d => Except.ok d
    | some p => Except.ok p
  else if truthyStr options.pipeline then
    if options.pipeline = some "default" then
      match config.pipelines.default with
      | none => Except.error "Default pipeline not found"
      | some d => Except.ok d
    else Except.error ("Unknown pipeline: " ++ options.pipeline.getD "")
  else
    match config.pipelines.default with
    | none => Except.error "No default pipeline found"
    | some d => Except.ok d

/-- Modelled from the claim: selection resolves custom first (required when
set), else branch with fallback to default, else `pipeline` accepting only
the literal `"default"`, else the default pipeline; `none` is a selection
error. -/
def selectPipelineSpec (config : PipelineConfig) (options : CLIOptions) :
    Option Pipeline :=
  if truthyStr options.custom then
    match config.pipelines.custom with
    | none => none
    | some m => lookupKey m (options.custom.getD "")
  else if truthyStr options.branch then
    match
      (match config.pipelines.branches with
       | none => none
       | some m => lookupKey m (options.branch.getD "")) with
    | some p => some p
    | none => config.pipelines.default
  else if truthyStr options.pipeline then
    if options.pipeline = some "default" then config.pipelines.default
    else none
  else config.pipelines.default

/-- `BitbucketPipelinesRunner.listPipelines`: pushes `default`, then
`branches/<name>`, then `custom/<name>`, then `tags/<name>`, each group in
definition order. -/
def listPipelines (config : PipelineConfig) : List String :=
  (match config.pipelines.default with
   | some _ => ["default"]
   | none => [])
    ++ (match config.pipelines.branches with
        | some l => l.map (fun p => "branches/" ++ p.1)
        | none => [])
    ++ (match config.pipelines.custom with
        | some l => l.map (fun p => "custom/" ++ p.1)
        | none => [])
    ++ (match config.pipelines.tags with
        | some l => l.map (fun p => "tags/" ++ p.1)
        | none => [])

/-- Lexicographic order on character lists (the order of string sorting). -/
def charListLe : List Char → List Char → Bool
  | [], _ => true
  | _ :: _, [] => false
  | a :: as, b :: bs =>
    if a < b then true else if b < a then false else charListLe as bs

/-- Whether a list of labels is sorted (lexicographic string order). -/
def labelsSorted : List String → Bool
  | [] => true
  | [_] => true
  | a :: b :: rest => charListLe a.data b.data && labelsSorted (b :: rest)

/-! ## Scheduler (`executeStep` / `executeParallelSteps` / `executePipeline`) -/

/-- How one step's body resolves: the container run completed with an exit
code, or an exception escaped into `executeStep`'s catch. -/
inductive StepOutcome
  | completed (exitCode : Int)
  | threw
deriving DecidableEq

/-- The claim-relevant slice of a `StepResult`. -/
structure StepResult where
  name : String
  success : Bool
  exitCode : Int
deriving DecidableEq

/-- `BitbucketPipelinesRunner.executeStep` (non-dry-run): resolves a result
in every case — a completed container run yields its exit code and
`success = (exitCode === 0)`; a thrown error is caught and yields a failure
result with `exitCode = 1`. It never rejects. -/
def executeStep (outcome : Step → StepOutcome) (step : Step) : StepResult :=
  let stepName := jsStrOr step.name "Unnamed Step"
  match outcome step with
  | StepOutcome.completed code =>
    { name := stepName, success := code == 0, exitCode := code }
  | StepOutcome.threw =>
    { name := stepName, success := false, exitCode := 1 }

/-- `BitbucketPipelinesRunner.executeParallelSteps`. Every entry of
`stepPromises` settles: `executeStep` already resolves on error, and the
`.catch` attached when the array is built converts any residual rejection
into a failure result. `Promise.all(stepPromises)` therefore never rejects,
the `catch` arm of the fail-fast branch (which would synthesize
`exitCode = 1` results for rejected slots) is unreachable, no cancellation
is ever initiated, and both modes return every child's own settled result
in array order. -/
def executeParallelSteps (outcome : Step → StepOutcome)
    (ps : ParallelSteps) : List StepResult :=
  let stepPromises := ps.steps.map (executeStep outcome)
  if ps.failFast then stepPromises else stepPromises

/-- The results one pipeline item contributes. -/
def itemResults (outcome : Step → StepOutcome) :
    PipelineItem → List StepResult
  | PipelineItem.stepItem s => [executeStep outcome s]
  | PipelineItem.parallelItem g => executeParallelSteps outcome g

/-- Whether an item fails (a step result with `success = false`; for a
group, any failed member). -/
def itemFails (outcome : Step → StepOutcome) (item : PipelineItem) : Bool :=
  (itemResults outcome item).any (fun r => !r.success)

/-- Concatenation of the results of a list of items, in order. -/
def concatResults (outcome : Step → StepOutcome) :
    List PipelineItem → List StepResult
  | [] => []
  | it :: rest => itemResults outcome it ++ concatResults outcome rest

/-- `BitbucketPipelinesRunner.executePipeline`: walk the items in order,
collecting results; `break` on the first failing step or first parallel
group containing a failure. Returns the collected results and the success
flag. -/
def executePipeline (outcome : Step → StepOutcome) :
    Pipeline → List StepResult × Bool
  | [] => ([], true)
  | PipelineItem.stepItem s :: rest =>
    let r := executeStep outcome s
    if r.success then
      let res := executePipeline outcome rest
      (r :: res.1, res.2)
    else ([r], false)
  | PipelineItem.parallelItem g :: rest =>
    let rs := executeParallelSteps outcome g
    if rs.any (fun r => !r.success) then (rs, false)
    else
      let res := executePipeline outcome rest
      (rs ++ res.1, res.2)

/-! ## Cache store publish protocol (`CacheManager`, `src/src/index.ts`)

`saveCache` writes the archive to `<path>.tar.gz.tmp` (possibly in many
event-loop turns) and then renames it over `<path>.tar.gz`; `restoreCache`
only ever reads `<path>.tar.gz`. The per-name filesystem slice is modelled
as the contents of the two paths, and one run as a sequence of completed
saves followed by a prefix of the in-flight save's events, with restores
observing the state at any such point. -/

/-- Archive bytes. -/
abbrev Archive := List Nat

/-- Contents of `<path>.tar.gz.tmp` and `<path>.tar.gz` for one cache name. -/
structure CacheFs where
  tmpFile : Option Archive
  finalFile : Option Archive
deriving DecidableEq

/-- Atomic filesystem events of `saveCache`: `tar.create` truncates the tmp
file and streams chunks into it; `fs.rename` atomically moves tmp over the
final archive. -/
inductive CacheEvent
  | startTmpWrite
  | appendTmpChunk (chunk : Archive)
  | renameTmpToFinal
deriving DecidableEq

/-- Effect of one event on the filesystem slice. -/
def stepFs (fs : CacheFs) : CacheEvent → CacheFs
  | CacheEvent.startTmpWrite => { fs with tmpFile := some [] }
  | CacheEvent.appendTmpChunk ch =>
    { fs with tmpFile := some ((fs.tmpFile.getD []) ++ ch) }
  | CacheEvent.renameTmpToFinal =>
    { tmpFile := none, finalFile := fs.tmpFile }

/-- Run a sequence of events. -/
def runEvents (fs : CacheFs) (evs : List CacheEvent) : CacheFs :=
  evs.foldl stepFs fs

/-- Both paths absent before the first save. -/
def initCacheFs : CacheFs := { tmpFile := none, finalFile := none }

/-- The event script of one `saveCache` call: a missing source path is a
no-op; otherwise write the tmp archive in chunks, then rename. -/
def saveCacheEvents : Option (List Archive) → List CacheEvent
  | none => []
  | some chunks =>
    CacheEvent.startTmpWrite :: chunks.map CacheEvent.appendTmpChunk
      ++ [CacheEvent.renameTmpToFinal]

/-- Events of a sequence of saves, oldest first. -/
def savesEvents : List (Option (List Archive)) → List CacheEvent
  | [] => []
  | s :: rest => saveCacheEvents s ++ savesEvents rest

/-- The complete bytes a save publishes. -/
def fullArchive (chunks : List Archive) : Archive :=
  chunks.foldl (fun acc ch => acc ++ ch) []

/-- The archives of the completed saves, oldest first. -/
def committedArchives (saves : List (Option (List Archive))) : List Archive :=
  saves.filterMap (fun s => s.map fullArchive)

/-- The archive the most recent completed save published, if any. -/
def lastCommittedArchive : List (Option (List Archive)) → Option Archive
  | [] => none
  | s :: rest => optOr (lastCommittedArchive rest) (s.map fullArchive)

/-- `CacheManager.restoreCache` reads only `<path>.tar.gz`: `none` models the
`false` return (archive absent), `some a` models a successful extraction of
exactly the bytes `a` found there. -/
def restoreCacheReads (fs : CacheFs) : Option Archive := fs.finalFile

/-! ## Artifact step-name sanitization
(`ArtifactManager.sanitizeStepName`) -/

/-- `[A-Za-z0-9_-]` — the characters the sanitizer keeps. -/
def isKeptChar (c : Char) : Bool :=
  ('a' ≤ c && c ≤ 'z') || ('A' ≤ c && c ≤ 'Z') || ('0' ≤ c && c ≤ '9')
    || c == '_' || c == '-'

/-- `.replace(/[^a-zA-Z0-9_-]/g, '_')`. -/
def replaceDisallowed (l : List Char) : List Char :=
  l.map (fun c => if isKeptChar c then c else '_')

/-- `.replace(/_{2,}/g, '_')`: every run of underscores becomes a single
underscore. -/
def collapseUnderscores : List Char → List Char
  | [] => []
  | c :: cs =>
    if c == '_' then
      '_' :: collapseUnderscores (cs.dropWhile (fun d => d == '_'))
    else c :: collapseUnderscores cs
termination_by l => l.length
decreasing_by
  · simp only [List.length_cons]
    exact Nat.lt_succ_of_le
      (List.Sublist.length_le (List.dropWhile_sublist _))
  · simp [List.length_cons]

/-- Leading part of `.replace(/^_+|_+$/g, '')`. -/
def trimFront (l : List Char) : List Char :=
  l.dropWhile (fun c => c == '_')

/-- Trailing part of `.replace(/^_+|_+$/g, '')`. -/
def trimBack (l : List Char) : List Char :=
  (l.reverse.dropWhile (fun c => c == '_')).reverse

/-- `.replace(/^_+|_+$/g, '')`. -/
def trimUnderscores (l : List Char) : List Char := trimBack (trimFront l)

/-- `.toLowerCase()` on the ASCII range — the only characters that can reach
this stage, every character outside `[A-Za-z0-9_-]` having been replaced by
`_` beforehand. -/
def jsToLowerAscii (c : Char) : Char :=
  if 'A' ≤ c ∧ c ≤ 'Z' then Char.ofNat (c.toNat + 32) else c

/-- `ArtifactManager.sanitizeStepName` on the character list. -/
def sanitizeChars (l : List Char) : List Char :=
  (trimUnderscores (collapseUnderscores (replaceDisallowed l))).map
    jsToLowerAscii

/-- `ArtifactManager.sanitizeStepName`. -/
def sanitizeStepName (s : String) : String :=
  String.mk (sanitizeChars s.data)

/-- `[a-z0-9_-]` — the output character class. -/
def isLowerKept (c : Char) : Bool :=
  ('a' ≤ c && c ≤ 'z') || ('0' ≤ c && c ≤ '9') || c == '_' || c == '-'

/-- Full match against `[a-z0-9_-]+`: non-empty and every character in the
class. -/
def matchesSanPattern (s : String) : Bool :=
  !s.data.isEmpty && s.data.all isLowerKept

theorem optOr_none_left {α : Type} (b : Option α) : optOr none b = b := rfl

theorem optOr_some_left {α : Type} (x : α) (b : Option α) :
    optOr (some x) b = some x := rfl

theorem optOr_assoc {α : Type} (a b c : Option α) :
    optOr (optOr a b) c = optOr a (optOr b c) := by
  cases a <;> rfl

theorem optOr_none_right {α : Type} (a : Option α) : optOr a none = a := by
  cases a <;> rfl

theorem objGet_map_set_self (k v : String) (m : Obj)
    (h : m.any (fun p => p.1 == k) = true) :
    objGet (m.map (fun p => if p.1 == k then (k, v) else p)) k = some v := by
  induction m with
  | nil => simp at h
  | cons p rest ih =>
    by_cases hp : p.1 = k
    · simp [objGet, hp]
    · have hp' : (p.1 == k) = false := by simp [hp]
      simp only [List.any_cons, hp', Bool.false_or] at h
      simp only [List.map_cons, hp', Bool.false_eq_true, if_false]
      rw [objGet, if_neg (by simp [hp])]
      exact ih h

theorem objGet_map_set_ne (k k' v : String) (hne : k' ≠ k) (m : Obj) :
    objGet (m.map (fun p => if p.1 == k' then (k', v) else p)) k
      = objGet m k := by
  induction m with
  | nil => rfl
  | cons p rest ih =>
    simp only [List.map_cons]
    by_cases hp : p.1 = k'
    · rw [if_pos (by simp [hp]), objGet, if_neg (by simp [hne]), objGet,
        if_neg (by simp [hp, hne])]
      exact ih
    · rw [if_neg (by simp [hp]), objGet, objGet]
      by_cases hk : p.1 = k
      · rw [if_pos (by simp [hk]), if_pos (by simp [hk])]
      · rw [if_neg (by simp [hk]), if_neg (by simp [hk])]
        exact ih

theorem objGet_append_singleton (m : Obj) (x : String × String) (k : String) :
    objGet (m ++ [x]) k
      = optOr (objGet m k) (if x.1 == k then some x.2 else none) := by
  induction m with
  | nil => simp [objGet, optOr]
  | cons q rest ih =>
    by_cases hq : q.1 = k
    · rw [List.cons_append, objGet, if_pos (by simp [hq]), objGet,
        if_pos (by simp [hq]), optOr_some_left]
    · rw [List.cons_append, objGet, if_neg (by simp [hq]), objGet,
        if_neg (by simp [hq])]
      exact ih

theorem objGet_none_of_not_mem (m : Obj) (k : String)
    (h : ¬m.any (fun p => p.1 == k) = true) :
    objGet m k = none := by
  induction m with
  | nil => rfl
  | cons p rest ih =>
    simp only [List.any_cons, Bool.or_eq_true] at h
    push_neg at h
    rw [objGet, if_neg (by simpa using h.1)]
    exact ih h.2

theorem objGet_objSet_self (m : Obj) (k v : String) :
    objGet (objSet m k v) k = some v := by
  unfold objSet
  by_cases h : m.any (fun p => p.1 == k) = true
  · rw [if_pos h]
    exact objGet_map_set_self k v m h
  · rw [if_neg h, objGet_append_singleton, objGet_none_of_not_mem m k h]
    simp [optOr]

theorem objGet_objSet_ne (m : Obj) (k k' v : String) (hne : k' ≠ k) :
    objGet (objSet m k' v) k = objGet m k := by
  unfold objSet
  by_cases h : m.any (fun p => p.1 == k') = true
  · rw [if_pos h]
    exact objGet_map_set_ne k k' v hne m
  · rw [if_neg h, objGet_append_singleton]
    have hx : (((k', v) : String × String).1 == k) = false := by simp [hne]
    rw [hx]
    simp [optOr_none_right]

/-! ## Lemmas about environment merging -/

theorem lastNonEmptyVal_foldl_acc (env : EnvSrc) (k : String)
    (acc : Option String) :
    env.foldl (fun a p =>
      match p.2 with
      | some v => if p.1 = k ∧ v ≠ "" then some v else a
      | none => a) acc
      = optOr (lastNonEmptyVal env k) acc := by
  induction env generalizing acc with
  | nil => simp [lastNonEmptyVal, optOr]
  | cons p rest ih =>
    rw [lastNonEmptyVal, List.foldl_cons, List.foldl_cons]
    cases hv : p.2 with
    | none => simp only; rw [ih, ih none, optOr_none_right]
    | some v =>
      simp only
      by_cases hcond : p.1 = k ∧ v ≠ ""
      · rw [if_pos hcond, if_pos hcond, ih, optOr_assoc, optOr_some_left]
      · rw [if_neg hcond, if_neg hcond, ih, ih none, optOr_none_right]

theorem objGet_mergeIntoOne (m : Obj) (env : EnvSrc) (k : String) :
    objGet (mergeIntoOne m env) k
      = optOr (lastNonEmptyVal env k) (objGet m k) := by
  induction env generalizing m with
  | nil => simp [mergeIntoOne, lastNonEmptyVal, optOr]
  | cons p rest ih =>
    rw [mergeIntoOne, List.foldl_cons, lastNonEmptyVal, List.foldl_cons]
    cases hv : p.2 with
    | none =>
      simp only
      rw [show rest.foldl _ m = mergeIntoOne m rest from rfl, ih,
        lastNonEmptyVal_foldl_acc, optOr_none_right]
    | some v =>
      simp only
      by_cases hve : v ≠ ""
      · rw [if_pos hve]
        by_cases hk : p.1 = k
        · rw [if_pos ⟨hk, hve⟩,
            show rest.foldl _ (objSet m p.1 v) = mergeIntoOne (objSet m p.1 v) rest from rfl,
            ih, lastNonEmptyVal_foldl_acc, hk, objGet_objSet_self,
            optOr_assoc, optOr_some_left]
        · rw [if_neg (by tauto),
            show rest.foldl _ (objSet m p.1 v) = mergeIntoOne (objSet m p.1 v) rest from rfl,
            ih, lastNonEmptyVal_foldl_acc, objGet_objSet_ne m k p.1 v hk,
            optOr_none_right]
      · rw [if_neg hve, if_neg (by tauto),
          show rest.foldl _ m = mergeIntoOne m rest from rfl, ih,
          lastNonEmptyVal_foldl_acc, optOr_none_right]

theorem objGet_mergeEnvs_foldl (envs : List EnvSrc) (m : Obj) (k : String) :
    objGet (envs.foldl mergeIntoOne m) k
      = optOr (lastNonEmptyAcross envs k) (objGet m k) := by
  induction envs generalizing m with
  | nil => simp [lastNonEmptyAcross, optOr]
  | cons env rest ih =>
    rw [List.foldl_cons, ih, objGet_mergeIntoOne, lastNonEmptyAcross,
      ← optOr_assoc]

/-- Characterization of `mergeEnvironments`: looking up `k` in the merged
object yields exactly the last non-empty value across the sources. -/
theorem objGet_mergeEnvironments (envs : List EnvSrc) (k : String) :
    objGet (mergeEnvironments envs) k = lastNonEmptyAcross envs k := by
  rw [mergeEnvironments, objGet_mergeEnvs_foldl]
  simp [objGet, optOr_none_right]

theorem lastNonEmptyVal_ne_empty (env : EnvSrc) (k : String) :
    lastNonEmptyVal env k ≠ some "" := by
  suffices h : ∀ acc : Option String, acc ≠ some "" →
      env.foldl (fun a p =>
        match p.2 with
        | some v => if p.1 = k ∧ v ≠ "" then some v else a
        | none => a) acc ≠ some "" by
    exact h none (by simp)
  intro acc hacc
  induction env generalizing acc with
  | nil => simpa using hacc
  | cons p rest ih =>
    rw [List.foldl_cons]
    cases hv : p.2 with
    | none => exact ih acc hacc
    | some v =>
      simp only
      by_cases hcond : p.1 = k ∧ v ≠ ""
      · rw [if_pos hcond]
        exact ih (some v) (by simpa using hcond.2)
      · rw [if_neg hcond]
        exact ih acc hacc

theorem lastNonEmptyAcross_ne_empty (envs : List EnvSrc) (k : String) :
    lastNonEmptyAcross envs k ≠ some "" := by
  induction envs with
  | nil => simp [lastNonEmptyAcross]
  | cons e es ih =>
    rw [lastNonEmptyAcross]
    cases ha : lastNonEmptyAcross es k with
    | none => rw [optOr_none_left]; exact lastNonEmptyVal_ne_empty e k
    | some v =>
      rw [optOr_some_left]
      rw [ha] at ih
      exact ih

/-- A source that assigns only empty/null values to `k` contributes nothing
for `k`. -/
theorem lastNonEmptyVal_eq_none (env : EnvSrc) (k : String)
    (h : ∀ p ∈ env, p.1 = k → entryNonEmpty p.2 = false) :
    lastNonEmptyVal env k = none := by
  suffices hacc : ∀ acc : Option String,
      env.foldl (fun a p =>
        match p.2 with
        | some v => if p.1 = k ∧ v ≠ "" then some v else a
        | none => a) acc = acc by
    exact hacc none
  intro acc
  induction env generalizing acc with
  | nil => rfl
  | cons p rest ih =>
    rw [List.foldl_cons]
    have hrest : ∀ q ∈ rest, q.1 = k → entryNonEmpty q.2 = false := by
      intro q hq
      exact h q (List.mem_cons_of_mem p hq)
    cases hv : p.2 with
    | none => exact ih hrest acc
    | some v =>
      simp only
      by_cases hcond : p.1 = k ∧ v ≠ ""
      · have := h p (List.mem_cons_self p rest) hcond.1
        rw [hv] at this
        simp [entryNonEmpty] at this
        exact absurd this hcond.2
      · rw [if_neg hcond]
        exact ih hrest acc

theorem lastNonEmptyVal_cons (p : String × Option String) (rest : EnvSrc)
    (k : String) :
    lastNonEmptyVal (p :: rest) k
      = optOr (lastNonEmptyVal rest k)
          (match p.2 with
           | some v => if p.1 = k ∧ v ≠ "" then some v else none
           | none => none) := by
  rw [lastNonEmptyVal, List.foldl_cons, lastNonEmptyVal_foldl_acc]

theorem lastNonEmptyAcross_append (l₁ l₂ : List EnvSrc) (k : String) :
    lastNonEmptyAcross (l₁ ++ l₂) k
      = optOr (lastNonEmptyAcross l₂ k) (lastNonEmptyAcross l₁ k) := by
  induction l₁ with
  | nil => rw [List.nil_append, lastNonEmptyAcross, optOr_none_right]
  | cons e es ih =>
    rw [List.cons_append, lastNonEmptyAcross, ih, lastNonEmptyAcross,
      optOr_assoc]

theorem lastNonEmptyAcross_eq_none (envs : List EnvSrc) (k : String)
    (h : ∀ env ∈ envs, ∀ p ∈ env, p.1 = k → entryNonEmpty p.2 = false) :
    lastNonEmptyAcross envs k = none := by
  induction envs with
  | nil => rfl
  | cons e es ih =>
    rw [lastNonEmptyAcross,
      lastNonEmptyVal_eq_none e k (h e (List.mem_cons_self e es)),
      ih (fun env henv => h env (List.mem_cons_of_mem e henv)),
      optOr_none_right]

/-! ## Object invariants produced by the merge -/

theorem map_fst_objSet (m : Obj) (k v : String) :
    (objSet m k v).map Prod.fst
      = if m.any (fun p => p.1 == k) then m.map Prod.fst
        else m.map Prod.fst ++ [k] := by
  unfold objSet
  by_cases h : m.any (fun p => p.1 == k) = true
  · rw [if_pos h, if_pos h, List.map_map]
    apply List.map_congr_left
    intro p _
    by_cases hpk : p.1 = k
    · simp [hpk]
    · simp [hpk]
  · rw [if_neg h, if_neg h, List.map_append]
    rfl

theorem nodupKeys_objSet (m : Obj) (k v : String)
    (h : (m.map Prod.fst).Nodup) :
    ((objSet m k v).map Prod.fst).Nodup := by
  rw [map_fst_objSet]
  by_cases hc : m.any (fun p => p.1 == k) = true
  · rw [if_pos hc]; exact h
  · rw [if_neg hc]
    have hk : k ∉ m.map Prod.fst := by
      intro hmem
      rcases List.mem_map.mp hmem with ⟨p, hp, hpk⟩
      exact hc (List.any_eq_true.mpr ⟨p, hp, by simp [hpk]⟩)
    simpa using List.Nodup.append h (List.nodup_singleton k)
      (by simpa using hk)

theorem valuesNonEmpty_objSet (m : Obj) (k v : String) (hv : v ≠ "")
    (h : ∀ p ∈ m, p.2 ≠ "") :
    ∀ p ∈ objSet m k v, p.2 ≠ "" := by
  unfold objSet
  by_cases hc : m.any (fun p => p.1 == k) = true
  · rw [if_pos hc]
    intro q hq
    rcases List.mem_map.mp hq with ⟨p, hp, hpq⟩
    by_cases hpk : p.1 = k
    · rw [← hpq]; simp only [hpk, beq_self_eq_true, if_true]; exact hv
    · rw [← hpq]
      simp only [show (p.1 == k) = false by simp [hpk], Bool.false_eq_true,
        if_false]
      exact h p hp
  · rw [if_neg hc]
    intro q hq
    rcases List.mem_append.mp hq with hq1 | hq2
    · exact h q hq1
    · rcases List.mem_singleton.mp hq2 with rfl
      exact hv

theorem mergeIntoOne_invariants (env : EnvSrc) :
    ∀ m : Obj, (m.map Prod.fst).Nodup → (∀ p ∈ m, p.2 ≠ "") →
      ((mergeIntoOne m env).map Prod.fst).Nodup
        ∧ ∀ p ∈ mergeIntoOne m env, p.2 ≠ "" := by
  induction env with
  | nil => intro m h1 h2; exact ⟨h1, h2⟩
  | cons p rest ih =>
    intro m h1 h2
    rw [mergeIntoOne, List.foldl_cons]
    cases hv : p.2 with
    | none => exact ih m h1 h2
    | some v =>
      simp only
      by_cases hve : v ≠ ""
      · rw [if_pos hve]
        exact ih (objSet m p.1 v) (nodupKeys_objSet m p.1 v h1)
          (valuesNonEmpty_objSet m p.1 v hve h2)
      · rw [if_neg hve]
        exact ih m h1 h2

theorem mergeEnvironments_invariants (envs : List EnvSrc) :
    ((mergeEnvironments envs).map Prod.fst).Nodup
      ∧ ∀ p ∈ mergeEnvironments envs, p.2 ≠ "" := by
  rw [mergeEnvironments]
  suffices h : ∀ m : Obj, (m.map Prod.fst).Nodup → (∀ p ∈ m, p.2 ≠ "") →
      ((envs.foldl mergeIntoOne m).map Prod.fst).Nodup
        ∧ ∀ p ∈ envs.foldl mergeIntoOne m, p.2 ≠ "" by
    exact h [] (by simp) (by simp)
  induction envs with
  | nil => intro m h1 h2; exact ⟨h1, h2⟩
  | cons e es ih =>
    intro m h1 h2
    rw [List.foldl_cons]
    have := mergeIntoOne_invariants e m h1 h2
    exact ih (mergeIntoOne m e) this.1 this.2

theorem lastNonEmptyVal_cons_lift (x : String × String) (rest : EnvSrc)
    (k : String) :
    lastNonEmptyVal ((x.1, some x.2) :: rest) k
      = optOr (lastNonEmptyVal rest k)
          (if x.1 = k ∧ x.2 ≠ "" then some x.2 else none) := by
  rw [lastNonEmptyVal_cons]

theorem lastNonEmptyVal_liftObj (m : Obj) (k : String)
    (huniq : (m.map Prod.fst).Nodup) (hval : ∀ p ∈ m, p.2 ≠ "") :
    lastNonEmptyVal (liftObj m) k = objGet m k := by
  induction m with
  | nil => rfl
  | cons p rest ih =>
    simp only [List.map_cons, List.nodup_cons] at huniq
    rw [show liftObj (p :: rest) = (p.1, some p.2) :: liftObj rest from rfl,
      lastNonEmptyVal_cons_lift, objGet]
    by_cases hpk : p.1 = k
    · have hrest : lastNonEmptyVal (liftObj rest) k = none := by
        apply lastNonEmptyVal_eq_none
        intro q hq hqk
        exfalso
        rcases List.mem_map.mp hq with ⟨r, hr, hrq⟩
        apply huniq.1
        have hr1 : r.1 = k := by rw [← hrq] at hqk; exact hqk
        rw [hpk, ← hr1]
        exact List.mem_map.mpr ⟨r, hr, rfl⟩
      have hvp : p.2 ≠ "" := hval p (List.mem_cons_self p rest)
      rw [hrest, optOr_none_left, if_pos ⟨hpk, hvp⟩, if_pos (by simp [hpk])]
    · rw [if_neg (by tauto), optOr_none_right, if_neg (by simp [hpk])]
      exact ih huniq.2 (fun q hq => hval q (List.mem_cons_of_mem p hq))

theorem lastNonEmptyAcross_single (b : EnvSrc) (k : String) :
    lastNonEmptyAcross [b] k = lastNonEmptyVal b k := by
  simp [lastNonEmptyAcross, optOr_none_left]

theorem lastNonEmptyAcross_pair (a b : EnvSrc) (k : String) :
    lastNonEmptyAcross [a, b] k
      = optOr (lastNonEmptyVal b k) (lastNonEmptyVal a k) := by
  simp [lastNonEmptyAcross, optOr_none_left]

/-! ## Claim theorems -/

/-- Claim C10: `mergeEnvironments` never binds a key to the empty string:
an entry whose value is `''` (or null/undefined) is skipped during the
merge, a later source carrying an empty value for a key neither overrides
nor removes an earlier non-empty binding of that key, and a key that is
only ever assigned empty values is absent from the merged result. -/
theorem mergeEnvironments_skip_empty
    (envs : List EnvSrc) (env₂ : EnvSrc) (k : String)
    (hEmpty : ∀ p ∈ env₂, p.1 = k → entryNonEmpty p.2 = false) :
    objGet (mergeEnvironments envs) k ≠ some ""
    ∧ objGet (mergeEnvironments (envs ++ [env₂])) k
        = objGet (mergeEnvironments envs) k
    ∧ ((∀ env ∈ envs, ∀ p ∈ env, p.1 = k → entryNonEmpty p.2 = false) →
        objGet (mergeEnvironments envs) k = none) := by
  refine ⟨?_, ?_, ?_⟩
  · rw [objGet_mergeEnvironments]
    exact lastNonEmptyAcross_ne_empty envs k
  · rw [objGet_mergeEnvironments, objGet_mergeEnvironments,
      lastNonEmptyAcross_append, lastNonEmptyAcross_single,
      lastNonEmptyVal_eq_none env₂ k hEmpty, optOr_none_left]
  · intro hAll
    rw [objGet_mergeEnvironments]
    exact lastNonEmptyAcross_eq_none envs k hAll

theorem mergeEnvironments_skip_empty_witness :
    (∀ p ∈ ([("A", some "")] : EnvSrc), p.1 = "A" →
        entryNonEmpty p.2 = false)
    ∧ (objGet (mergeEnvironments [[("A", some "x")]]) "A" ≠ some ""
      ∧ objGet (mergeEnvironments
            ([[("A", some "x")]] ++ [[("A", some "")]])) "A"
          = objGet (mergeEnvironments [[("A", some "x")]]) "A"
      ∧ ((∀ env ∈ [[("A", some "x")]], ∀ p ∈ env, p.1 = "A" →
            entryNonEmpty p.2 = false) →
          objGet (mergeEnvironments [[("A", some "x")]]) "A" = none)) :=
  ⟨by decide,
    mergeEnvironments_skip_empty [[("A", some "x")]] [("A", some "")] "A"
      (by decide)⟩

/-- Claim C2 (counterexample): the reserved system-variable name
`BITBUCKET_TAG` is computed as the empty string, and `mergeEnvironments`
skips empty values — so a user-supplied `BITBUCKET_TAG=v1` from the env
file survives in the effective environment: the system variable does not
override it, contradicting "a reserved system-variable name always
overrides a user-supplied value of the same name". -/
theorem effectiveEnv_systemVar_counterexample :
    objGet (createExecutionContextEnv [] none
        (some [("BITBUCKET_TAG", "v1")]) none none
        { branch := "local", commit := "local-commit", buildNumber := 1,
          repoName := "repo", workspace := "local-workspace",
          repoSlug := "repo", repoUuid := "u", stepName := none }
        "p" "s" "t" "e" "tm") "BITBUCKET_TAG" = some "v1"
    ∧ objGet (getBitbucketVariables
        { branch := "local", commit := "local-commit", buildNumber := 1,
          repoName := "repo", workspace := "local-workspace",
          repoSlug := "repo", repoUuid := "u", stepName := none }
        "p" "s" "t" "e" "tm" none) "BITBUCKET_TAG" = some ""
    ∧ ("v1" : String) ≠ "" := by
  refine ⟨by decide, by decide, by decide⟩

/-- Claim C2 (amended): the effective environment of a run is the
right-biased merge — skipping empty/null values — of, in order: the
process environment, `<cwd>/.env`, the user-specified env file,
`<cwd>/.env.pipelines`, the runner-config default variables, and the
system-variable object (the computed system variables with the
runner-config default variables assigned over them, configured values
winning on shared keys); the effective value of any key is the last
non-empty value across these sources. A system variable computed as the
empty string therefore does not override a user value, and step-local
`variables` are not part of the merge at all. -/
theorem effectiveEnv_precedence
    (processEnv : EnvSrc)
    (defaultEnv customEnv pipelineEnv configVars : Option Obj)
    (context : PipelineContext)
    (pipelineUuid stepUuid triggererUuid execId execTime : String)
    (k : String) :
    objGet (createExecutionContextEnv processEnv defaultEnv customEnv
        pipelineEnv configVars context pipelineUuid stepUuid triggererUuid
        execId execTime) k
      = lastNonEmptyAcross
          (([processEnv]
            ++ (match defaultEnv with | some e => [liftObj e] | none => [])
            ++ (match customEnv with | some e => [liftObj e] | none => [])
            ++ (match pipelineEnv with | some e => [liftObj e] | none => [])
            ++ (match configVars with | some e => [liftObj e] | none => []))
           ++ [liftObj (getBitbucketVariables context pipelineUuid stepUuid
                triggererUuid execId execTime configVars)]) k := by
  rw [createExecutionContextEnv, objGet_mergeEnvironments,
    lastNonEmptyAcross_pair, lastNonEmptyAcross_append,
    lastNonEmptyAcross_single, loadEnvironment.eq_def,
    lastNonEmptyVal_liftObj _ _ (mergeEnvironments_invariants _).1
      (mergeEnvironments_invariants _).2,
    objGet_mergeEnvironments]

/-- Claim C5: pipeline selection resolves in this order, first match
winning — custom (required when set, even when branch is also set), else
branch (`pipelines.branches[branch]` when present, otherwise
`pipelines.default`, error only if neither exists), else `pipeline`
accepting only the literal `"default"`, else `pipelines.default` (error
when absent). `selectPipeline` returns a pipeline exactly when the claim's
resolution does, and the same one. -/
theorem selectPipeline_matches_spec (config : PipelineConfig)
    (options : CLIOptions) (p : Pipeline) :
    selectPipeline config options = Except.ok p
      ↔ selectPipelineSpec config options = some p := by
  unfold selectPipeline selectPipelineSpec
  by_cases hc : truthyStr options.custom = true
  · simp only [hc, if_true]
    cases config.pipelines.custom with
    | none => simp
    | some m =>
      cases hq : lookupKey m (options.custom.getD "") with
      | none => simp [hq]
      | some q => simp [hq]
  · simp only [hc, Bool.false_eq_true, if_false]
    by_cases hb : truthyStr options.branch = true
    · simp only [hb, if_true]
      cases hbr : config.pipelines.branches with
      | none =>
        cases config.pipelines.default with
        | none => simp
        | some d => simp
      | some m =>
        cases hq : lookupKey m (options.branch.getD "") with
        | none =>
          cases config.pipelines.default with
          | none => simp [hq]
          | some d => simp [hq]
        | some q => simp [hq]
    · simp only [hb, Bool.false_eq_true, if_false]
      by_cases hp : truthyStr options.pipeline = true
      · simp only [hp, if_true]
        by_cases hpd : options.pipeline = some "default"
        · simp only [hpd, if_true]
          cases config.pipelines.default with
          | none => simp
          | some d => simp
        · simp only [hpd, if_false]
          simp
      · simp only [hp, Bool.false_eq_true, if_false]
        cases config.pipelines.default with
        | none => simp
        | some d => simp

/-- Claim C8 (counterexample): with a default pipeline and a
`branches/main` pipeline defined, `listPipelines` returns
`["default", "branches/main"]`, which is not in sorted order —
`listPipelines` pushes groups in the fixed order default, branches,
custom, tags without sorting. -/
theorem listPipelines_unsorted_counterexample :
    listPipelines
        { pipelines :=
          { default := some [], branches := some [("main", [])],
            tags := none, pullrequests := none, custom := none } }
      = ["default", "branches/main"]
    ∧ labelsSorted ["default", "branches/main"] = false := by
  exact ⟨rfl, by decide⟩

/-- Claim C8 (amended): `listPipelines` returns a list of labels of the form
`default`, `branches/<name>`, `custom/<name>`, `tags/<name>`, containing
the label `default` exactly when a default pipeline is defined and one
label per defined branches, custom, and tags pipeline — but the list is
not sorted. This theorem settles the membership and the count; the
counterexample exhibits the unsortedness. -/
theorem listPipelines_labels (config : PipelineConfig) :
    (∀ s : String, s ∈ listPipelines config ↔
      ((s = "default" ∧ config.pipelines.default.isSome = true)
        ∨ (∃ n pl, (n, pl) ∈ config.pipelines.branches.getD []
            ∧ s = "branches/" ++ n)
        ∨ (∃ n pl, (n, pl) ∈ config.pipelines.custom.getD []
            ∧ s = "custom/" ++ n)
        ∨ (∃ n pl, (n, pl) ∈ config.pipelines.tags.getD []
            ∧ s = "tags/" ++ n)))
    ∧ (listPipelines config).length
        = (if config.pipelines.default.isSome then 1 else 0)
          + (config.pipelines.branches.getD []).length
          + (config.pipelines.custom.getD []).length
          + (config.pipelines.tags.getD []).length := by
  cases hd : config.pipelines.default with
  | none =>
    cases hb : config.pipelines.branches with
    | none =>
      cases hcu : config.pipelines.custom with
      | none =>
        cases ht : config.pipelines.tags with
        | none =>
          constructor
          · intro s
            simp [listPipelines, hd, hb, hcu, ht]
          · simp [listPipelines, hd, hb, hcu, ht] <;> omega
        | some lt =>
          constructor
          · intro s
            simp [listPipelines, hd, hb, hcu, ht, eq_comm, and_comm]
          · simp [listPipelines, hd, hb, hcu, ht] <;> omega
      | some lc =>
        cases ht : config.pipelines.tags with
        | none =>
          constructor
          · intro s
            simp [listPipelines, hd, hb, hcu, ht, eq_comm, and_comm]
          · simp [listPipelines, hd, hb, hcu, ht] <;> omega
        | some lt =>
          constructor
          · intro s
            simp [listPipelines, hd, hb, hcu, ht, eq_comm, and_comm]
          · simp [listPipelines, hd, hb, hcu, ht] <;> omega
    | some lb =>
      cases hcu : config.pipelines.custom with
      | none =>
        cases ht : config.pipelines.tags with
        | none =>
          constructor
          · intro s
            simp [listPipelines, hd, hb, hcu, ht, eq_comm, and_comm]
          · simp [listPipelines, hd, hb, hcu, ht] <;> omega
        | some lt =>
          constructor
          · intro s
            simp [listPipelines, hd, hb, hcu, ht, eq_comm, and_comm]
          · simp [listPipelines, hd, hb, hcu, ht] <;> omega
      | some lc =>
        cases ht : config.pipelines.tags with
        | none =>
          constructor
          · intro s
            simp [listPipelines, hd, hb, hcu, ht, eq_comm, and_comm]
          · simp [listPipelines, hd, hb, hcu, ht] <;> omega
        | some lt =>
          constructor
          · intro s
            simp [listPipelines, hd, hb, hcu, ht, eq_comm, and_comm]
          · simp [listPipelines, hd, hb, hcu, ht] <;> omega
  | some dp =>
    cases hb : config.pipelines.branches with
    | none =>
      cases hcu : config.pipelines.custom with
      | none =>
        cases ht : config.pipelines.tags with
        | none =>
          constructor
          · intro s
            simp [listPipelines, hd, hb, hcu, ht]
          · simp [listPipelines, hd, hb, hcu, ht] <;> omega
        | some lt =>
          constructor
          · intro s
            simp [listPipelines, hd, hb, hcu, ht, eq_comm, and_comm]
          · simp [listPipelines, hd, hb, hcu, ht] <;> omega
      | some lc =>
        cases ht : config.pipelines.tags with
        | none =>
          constructor
          · intro s
            simp [listPipelines, hd, hb, hcu, ht, eq_comm, and_comm]
          · simp [listPipelines, hd, hb, hcu, ht] <;> omega
        | some lt =>
          constructor
          · intro s
            simp [listPipelines, hd, hb, hcu, ht, eq_comm, and_comm]
          · simp [listPipelines, hd, hb, hcu, ht] <;> omega
    | some lb =>
      cases hcu : config.pipelines.custom with
      | none =>
        cases ht : config.pipelines.tags with
        | none =>
          constructor
          · intro s
            simp [listPipelines, hd, hb, hcu, ht, eq_comm, and_comm]
          · simp [listPipelines, hd, hb, hcu, ht] <;> omega
        | some lt =>
          constructor
          · intro s
            simp [listPipelines, hd, hb, hcu, ht, eq_comm, and_comm]
          · simp [listPipelines, hd, hb, hcu, ht] <;> omega
      | some lc =>
        cases ht : config.pipelines.tags with
        | none =>
          constructor
          · intro s
            simp [listPipelines, hd, hb, hcu, ht, eq_comm, and_comm]
          · simp [listPipelines, hd, hb, hcu, ht] <;> omega
        | some lt =>
          constructor
          · intro s
            simp [listPipelines, hd, hb, hcu, ht, eq_comm, and_comm]
          · simp [listPipelines, hd, hb, hcu, ht] <;> omega

/-- Claim C6 (counterexample): with both `max-time: 10` and `maxTime: 20`
present on the same step, the canonical model carries `maxTime = 10` — the
HYPHENATED form wins (`step['max-time'] || step.maxTime`), not the
camelCase form; likewise `run-as-user: 1000` beats `runAsUser: 2000` in
`transformImage`. -/
theorem transform_camelWins_counterexample :
    transformStep
        { name := none, script := some (RawScript.arr ["echo hi"]),
          maxTimeHyphen := some 10, maxTimeCamel := some 20,
          afterScriptHyphen := none, afterScriptCamel := none }
      = Except.ok
          { name := none, script := ["echo hi"], maxTime := some 10,
            afterScript := none }
    ∧ transformImage
        (RawImage.obj
          { name := some "img", runAsUserHyphen := some 1000,
            runAsUserCamel := some 2000 })
      = Except.ok (CanonImage.obj "img" (some 1000))
    ∧ (10 : Nat) ≠ 20 ∧ (1000 : Nat) ≠ 2000 :=
  ⟨rfl, rfl, by decide, by decide⟩

/-- Claim C6 (amended): during normalization of the hyphen/camel key
variants, when both forms are present on the same object the HYPHENATED
form wins whenever its value is truthy (non-zero for the numeric
`max-time` and `run-as-user`, any array for `after-script`); the camelCase
value is used only when the hyphenated one is absent or falsy. -/
theorem transform_hyphen_wins (raw : RawStep) (img : RawImageObj)
    (cs : CanonStep) (mh mc : Nat) (ah ac : List String) (rh rc : Nat)
    (iname : String)
    (hok : transformStep raw = Except.ok cs)
    (hmh : raw.maxTimeHyphen = some mh) (hmc : raw.maxTimeCamel = some mc)
    (hm0 : mh ≠ 0)
    (hah : raw.afterScriptHyphen = some ah)
    (hac : raw.afterScriptCamel = some ac)
    (hrh : img.runAsUserHyphen = some rh)
    (hrc : img.runAsUserCamel = some rc) (hr0 : rh ≠ 0)
    (hin : img.name = some iname) (hin0 : iname ≠ "") :
    cs.maxTime = some mh ∧ cs.afterScript = some ah
      ∧ transformImage (RawImage.obj img)
          = Except.ok (CanonImage.obj iname (some rh)) := by
  unfold transformStep at hok
  by_cases hsc : scriptTruthy raw.script = true
  · rw [if_pos hsc] at hok
    injection hok with h
    subst h
    refine ⟨?_, ?_, ?_⟩
    · show jsOrNum raw.maxTimeHyphen raw.maxTimeCamel = some mh
      rw [hmh]
      simp only [jsOrNum]
      rw [if_neg hm0]
    · show jsOrArr raw.afterScriptHyphen raw.afterScriptCamel = some ah
      rw [hah]
      simp only [jsOrArr]
    · simp [transformImage, jsOrNum, hin, hin0, hrh, hr0]
  · rw [if_neg hsc] at hok
    exact absurd hok (by simp)

theorem transform_hyphen_wins_witness :
    (transformStep
        { name := none, script := some (RawScript.arr ["a"]),
          maxTimeHyphen := some 5, maxTimeCamel := some 7,
          afterScriptHyphen := some ["h"], afterScriptCamel := some ["c"] }
      = Except.ok
          { name := none, script := ["a"], maxTime := some 5,
            afterScript := some ["h"] })
    ∧ ((5 : Nat) ≠ 0 ∧ (3 : Nat) ≠ 0 ∧ ("i" : String) ≠ "")
    ∧ ({ name := none, script := ["a"], maxTime := some 5,
          afterScript := some ["h"] } : CanonStep).maxTime = some 5
    ∧ ({ name := none, script := ["a"], maxTime := some 5,
          afterScript := some ["h"] } : CanonStep).afterScript = some ["h"]
    ∧ transformImage
        (RawImage.obj
          { name := some "i", runAsUserHyphen := some 3,
            runAsUserCamel := some 4 })
        = Except.ok (CanonImage.obj "i" (some 3)) := by
  have h := transform_hyphen_wins
    { name := none, script := some (RawScript.arr ["a"]),
      maxTimeHyphen := some 5, maxTimeCamel := some 7,
      afterScriptHyphen := some ["h"], afterScriptCamel := some ["c"] }
    { name := some "i", runAsUserHyphen := some 3, runAsUserCamel := some 4 }
    { name := none, script := ["a"], maxTime := some 5,
      afterScript := some ["h"] }
    5 7 ["h"] ["c"] 3 4 "i" rfl rfl rfl (by decide) rfl rfl rfl rfl
    (by decide) rfl (by decide)
  exact ⟨rfl, ⟨by decide, by decide, by decide⟩, h.1, h.2.1, h.2.2⟩

/-- Claim C7 (counterexample): a step's `artifacts` written as a bare list
of strings is promoted to an object carrying only `paths` — the `download`
flag is NOT set (it is absent, not `true`), so the loader does not promote
it to `\x7bpaths: list, download: true\x7d`. -/
theorem transformArtifacts_bare_list_counterexample :
    (transformArtifacts (RawArtifacts.list ["dist/**"])).download = none
    ∧ (none : Option Bool) ≠ some true :=
  ⟨rfl, by decide⟩

/-- Claim C7 (amended): a bare list of strings is promoted to
`\x7bpaths: list\x7d` with `download` left unset; in the object form,
`paths` defaults to `[]` and `download` defaults to `true` when not given
(`download !== false`), staying `true`/`false` as given otherwise. -/
theorem transformArtifacts_download_default :
    (∀ l, transformArtifacts (RawArtifacts.list l)
        = { paths := l, download := none })
    ∧ (∀ p, (transformArtifacts (RawArtifacts.obj p none)).download
        = some true)
    ∧ (∀ p, (transformArtifacts (RawArtifacts.obj p (some true))).download
        = some true)
    ∧ (∀ p, (transformArtifacts (RawArtifacts.obj p (some false))).download
        = some false)
    ∧ (∀ p d, (transformArtifacts (RawArtifacts.obj (some p) d)).paths = p)
    ∧ (∀ d, (transformArtifacts (RawArtifacts.obj none d)).paths = []) :=
  ⟨fun _ => rfl, fun _ => rfl, fun _ => rfl, fun _ => rfl,
    fun _ _ => rfl, fun _ => rfl⟩

/-- Claim C4: when a sequential pipeline item fails (a step result with a
non-zero exit code, or a parallel group containing a failed step), no
subsequent pipeline item is started: execution short-circuits, the later
items' results are absent from the result list, and the pipeline result
has `success = false`. -/
theorem executePipeline_shortCircuit (outcome : Step → StepOutcome)
    (pre : List PipelineItem) (item : PipelineItem)
    (post : List PipelineItem)
    (hpre : ∀ it ∈ pre, itemFails outcome it = false)
    (hfail : itemFails outcome item = true) :
    executePipeline outcome (pre ++ item :: post)
      = (concatResults outcome pre ++ itemResults outcome item, false) := by
  induction pre with
  | nil =>
    rw [List.nil_append]
    cases item with
    | stepItem s =>
      have hs : (executeStep outcome s).success = false := by
        simpa [itemFails, itemResults] using hfail
      rw [executePipeline, if_neg (by simp [hs])]
      simp [itemResults, concatResults]
    | parallelItem g =>
      have hg : (executeParallelSteps outcome g).any (fun r => !r.success)
          = true := by
        simpa [itemFails, itemResults] using hfail
      rw [executePipeline, if_pos hg]
      simp [itemResults, concatResults]
  | cons it rest ih =>
    have hit : itemFails outcome it = false :=
      hpre it (List.mem_cons_self it rest)
    have hrest : ∀ x ∈ rest, itemFails outcome x = false :=
      fun x hx => hpre x (List.mem_cons_of_mem it hx)
    cases it with
    | stepItem s =>
      have hs : (executeStep outcome s).success = true := by
        simpa [itemFails, itemResults] using hit
      rw [List.cons_append, executePipeline, if_pos hs, ih hrest]
      simp [concatResults, itemResults]
    | parallelItem g =>
      have hg : (executeParallelSteps outcome g).any (fun r => !r.success)
          = false := by
        simpa [itemFails, itemResults] using hit
      rw [List.cons_append, executePipeline, if_neg (by simp [hg]), ih hrest]
      simp [concatResults, itemResults, List.append_assoc]

theorem executePipeline_shortCircuit_witness :
    (∀ it ∈ ([] : List PipelineItem),
        itemFails (fun _ => StepOutcome.completed 1) it = false)
    ∧ itemFails (fun _ => StepOutcome.completed 1)
        (PipelineItem.stepItem { name := some "s1", script := ["false"] })
        = true
    ∧ executePipeline (fun _ => StepOutcome.completed 1)
        ([] ++ PipelineItem.stepItem
            { name := some "s1", script := ["false"] }
          :: [PipelineItem.stepItem
            { name := some "s2", script := ["echo never"] }])
      = (concatResults (fun _ => StepOutcome.completed 1) []
          ++ itemResults (fun _ => StepOutcome.completed 1)
            (PipelineItem.stepItem
              { name := some "s1", script := ["false"] }), false) :=
  ⟨by decide, by decide,
    executePipeline_shortCircuit (fun _ => StepOutcome.completed 1) []
      (PipelineItem.stepItem { name := some "s1", script := ["false"] })
      [PipelineItem.stepItem { name := some "s2", script := ["echo never"] }]
      (by decide) (by decide)⟩

/-- Claim C1 (code evaluation at the failing input): in a `failFast = true`
parallel group whose two children both fail (exit codes 1 and 2), the
group returns both children's own FAILED results — the second child is
neither SUCCEEDED nor CANCELLED and no synthetic `exitCode = 1` result is
produced for it. `executeStep` never rejects (it catches all errors) and
each promise additionally carries a `.catch`, so `Promise.all` never
rejects, the fail-fast `catch` arm that would fabricate cancelled results
is dead code, and no cancellation is ever propagated. -/
theorem executeParallelSteps_failFast_noCancellation :
    executeParallelSteps
        (fun s => if s.name = some "s1" then StepOutcome.completed 1
          else StepOutcome.completed 2)
        { failFast := true,
          steps := [{ name := some "s1", script := ["false"] },
                    { name := some "s2", script := ["exit 2"] }] }
      = [{ name := "s1", success := false, exitCode := 1 },
         { name := "s2", success := false, exitCode := 2 }]
    ∧ ({ name := "s2", success := false, exitCode := 2 }
        : StepResult).exitCode ≠ 1 := by
  exact ⟨by decide, by decide⟩

/-! ## Cache publish protocol lemmas -/

theorem runEvents_append (fs : CacheFs) (e₁ e₂ : List CacheEvent) :
    runEvents fs (e₁ ++ e₂) = runEvents (runEvents fs e₁) e₂ := by
  rw [runEvents, runEvents, runEvents, List.foldl_append]

theorem runEvents_chunks (chunks : List Archive) :
    ∀ (acc : Archive) (f : Option Archive),
      runEvents { tmpFile := some acc, finalFile := f }
          (chunks.map CacheEvent.appendTmpChunk)
        = { tmpFile := some (chunks.foldl (fun a ch => a ++ ch) acc),
            finalFile := f } := by
  induction chunks with
  | nil => intro acc f; rfl
  | cons ch rest ih =>
    intro acc f
    rw [List.map_cons,
      show runEvents { tmpFile := some acc, finalFile := f }
          (CacheEvent.appendTmpChunk ch :: rest.map CacheEvent.appendTmpChunk)
        = runEvents { tmpFile := some (acc ++ ch), finalFile := f }
            (rest.map CacheEvent.appendTmpChunk) from rfl,
      ih (acc ++ ch) f, List.foldl_cons]

theorem runEvents_saveScript (fs : CacheFs) (chunks : List Archive) :
    runEvents fs (saveCacheEvents (some chunks))
      = { tmpFile := none, finalFile := some (fullArchive chunks) } := by
  rw [show saveCacheEvents (some chunks)
      = CacheEvent.startTmpWrite ::
          (chunks.map CacheEvent.appendTmpChunk
            ++ [CacheEvent.renameTmpToFinal]) from rfl,
    show runEvents fs
        (CacheEvent.startTmpWrite ::
          (chunks.map CacheEvent.appendTmpChunk
            ++ [CacheEvent.renameTmpToFinal]))
      = runEvents { tmpFile := some [], finalFile := fs.finalFile }
          (chunks.map CacheEvent.appendTmpChunk
            ++ [CacheEvent.renameTmpToFinal]) from rfl,
    runEvents_append, runEvents_chunks]
  rfl

theorem finalFile_runEvents_no_rename (evs : List CacheEvent)
    (h : CacheEvent.renameTmpToFinal ∉ evs) :
    ∀ fs : CacheFs, (runEvents fs evs).finalFile = fs.finalFile := by
  induction evs with
  | nil => intro fs; rfl
  | cons e rest ih =>
    intro fs
    have he : e ≠ CacheEvent.renameTmpToFinal :=
      fun hh => h (hh ▸ List.mem_cons_self e rest)
    have hr : CacheEvent.renameTmpToFinal ∉ rest :=
      fun hh => h (List.mem_cons_of_mem e hh)
    rw [show runEvents fs (e :: rest) = runEvents (stepFs fs e) rest from rfl,
      ih hr]
    cases e with
    | startTmpWrite => rfl
    | appendTmpChunk ch => rfl
    | renameTmpToFinal => exact absurd rfl he

theorem finalFile_after_saves (done : List (Option (List Archive))) :
    ∀ fs : CacheFs, (runEvents fs (savesEvents done)).finalFile
      = optOr (lastCommittedArchive done) fs.finalFile := by
  induction done with
  | nil => intro fs; rfl
  | cons s rest ih =>
    intro fs
    rw [savesEvents, runEvents_append, ih, lastCommittedArchive]
    cases s with
    | none =>
      rw [show saveCacheEvents none = [] from rfl,
        show runEvents fs [] = fs from rfl]
      cases lastCommittedArchive rest <;> rfl
    | some chunks =>
      rw [runEvents_saveScript]
      cases lastCommittedArchive rest <;> rfl

theorem lastCommitted_mem (done : List (Option (List Archive)))
    (a : Archive) (h : lastCommittedArchive done = some a) :
    a ∈ committedArchives done := by
  induction done with
  | nil =>
    rw [lastCommittedArchive] at h
    exact Option.noConfusion h
  | cons s rest ih =>
    rw [lastCommittedArchive] at h
    cases hlc : lastCommittedArchive rest with
    | some b =>
      rw [hlc, optOr_some_left] at h
      injection h with hba
      subst hba
      cases s with
      | none =>
        rw [show committedArchives (none :: rest) = committedArchives rest
          from rfl]
        exact ih hlc
      | some c =>
        rw [show committedArchives (some c :: rest)
            = fullArchive c :: committedArchives rest from rfl]
        exact List.mem_cons_of_mem _ (ih hlc)
    | none =>
      rw [hlc, optOr_none_left] at h
      cases s with
      | none => exact Option.noConfusion h
      | some c =>
        rw [show Option.map fullArchive (some c) = some (fullArchive c)
          from rfl] at h
        injection h with hca
        rw [show committedArchives (some c :: rest)
            = fullArchive c :: committedArchives rest from rfl, ← hca]
        exact List.mem_cons_self _ _

theorem rename_not_mem_init (chunks : List Archive)
    (hmem : CacheEvent.renameTmpToFinal
      ∈ CacheEvent.startTmpWrite :: chunks.map CacheEvent.appendTmpChunk) :
    False := by
  rcases List.mem_cons.mp hmem with h1 | h2
  · exact absurd h1 (by simp)
  · rcases List.mem_map.mp h2 with ⟨ch, _, hch⟩
    exact absurd hch (by simp)

theorem prefix_rename_eq_whole (chunks : List Archive)
    (p : List CacheEvent)
    (hp : p <+: saveCacheEvents (some chunks))
    (hmem : CacheEvent.renameTmpToFinal ∈ p) :
    p = saveCacheEvents (some chunks) := by
  rw [show saveCacheEvents (some chunks)
      = (CacheEvent.startTmpWrite :: chunks.map CacheEvent.appendTmpChunk)
        ++ [CacheEvent.renameTmpToFinal] from by
        rw [saveCacheEvents]] at hp ⊢
  rcases List.prefix_concat_iff.mp hp with hw | hinit
  · exact hw
  · exact absurd (hinit.mem hmem) (fun hh => rename_not_mem_init chunks hh)

/-- Claim C3: `saveCache` writes the archive to `<path>.tar.gz.tmp` and then
atomically renames it over `<path>.tar.gz`, so for any sequence of saves
with a concurrent restore within one process, the restore — which reads
only `<path>.tar.gz` — either returns false (`none`) or extracts the bytes
of a completed previous save, never a partially written archive. The
observation point is after any number of completed saves plus any prefix
of the in-flight save's events. -/
theorem cacheRestore_atomic (doneSaves : List (Option (List Archive)))
    (cur : Option (List Archive)) (p : List CacheEvent)
    (hp : p <+: saveCacheEvents cur) :
    restoreCacheReads (runEvents initCacheFs (savesEvents doneSaves ++ p))
        = none
    ∨ (∃ a ∈ committedArchives doneSaves,
        restoreCacheReads
            (runEvents initCacheFs (savesEvents doneSaves ++ p))
          = some a)
    ∨ (∃ chunks, cur = some chunks ∧ p = saveCacheEvents cur
        ∧ restoreCacheReads
            (runEvents initCacheFs (savesEvents doneSaves ++ p))
          = some (fullArchive chunks)) := by
  rw [restoreCacheReads, runEvents_append]
  by_cases hmem : CacheEvent.renameTmpToFinal ∈ p
  · cases cur with
    | none =>
      rw [show saveCacheEvents none = [] from rfl] at hp
      rw [List.prefix_nil.mp hp] at hmem
      simp at hmem
    | some chunks =>
      have hpw := prefix_rename_eq_whole chunks p hp hmem
      rw [hpw, runEvents_saveScript]
      exact Or.inr (Or.inr ⟨chunks, rfl, rfl, rfl⟩)
  · rw [finalFile_runEvents_no_rename p hmem, finalFile_after_saves]
    rw [show initCacheFs.finalFile = none from rfl]
    cases hlc : lastCommittedArchive doneSaves with
    | none => exact Or.inl rfl
    | some a =>
      exact Or.inr (Or.inl ⟨a, lastCommitted_mem doneSaves a hlc, rfl⟩)

theorem cacheRestore_atomic_witness :
    ([CacheEvent.startTmpWrite] <+: saveCacheEvents (some [[3]]))
    ∧ (restoreCacheReads
          (runEvents initCacheFs
            (savesEvents [some [[1], [2]]] ++ [CacheEvent.startTmpWrite]))
        = none
      ∨ (∃ a ∈ committedArchives [some [[1], [2]]],
          restoreCacheReads
              (runEvents initCacheFs
                (savesEvents [some [[1], [2]]] ++ [CacheEvent.startTmpWrite]))
            = some a)
      ∨ (∃ chunks, some [[3]] = some chunks
          ∧ [CacheEvent.startTmpWrite] = saveCacheEvents (some [[3]])
          ∧ restoreCacheReads
              (runEvents initCacheFs
                (savesEvents [some [[1], [2]]]
                  ++ [CacheEvent.startTmpWrite]))
            = some (fullArchive chunks))) :=
  ⟨by decide,
    cacheRestore_atomic [some [[1], [2]]] (some [[3]])
      [CacheEvent.startTmpWrite] (by decide)⟩

/-! ## Sanitizer lemmas -/

theorem char_toNat_inj {a b : Char} (h : a.toNat = b.toNat) : a = b :=
  Char.ext (UInt32.ext h)

theorem toNat_ofNat_valid (m : Nat) (h : m.isValidChar) :
    (Char.ofNat m).toNat = m := by
  rw [Char.ofNat, dif_pos h]
  rfl

theorem jsToLower_upper {c : Char} (h1 : 65 ≤ c.toNat) (h2 : c.toNat ≤ 90) :
    (jsToLowerAscii c).toNat = c.toNat + 32 := by
  rw [jsToLowerAscii, if_pos ⟨h1, h2⟩]
  exact toNat_ofNat_valid _ (Or.inl (by omega))

theorem jsToLower_id {c : Char} (h : ¬(65 ≤ c.toNat ∧ c.toNat ≤ 90)) :
    jsToLowerAscii c = c := by
  rw [jsToLowerAscii]
  exact if_neg h

theorem jsToLower_cases (c : Char) :
    (65 ≤ c.toNat ∧ c.toNat ≤ 90
      ∧ (jsToLowerAscii c).toNat = c.toNat + 32)
    ∨ (¬(65 ≤ c.toNat ∧ c.toNat ≤ 90) ∧ jsToLowerAscii c = c) := by
  by_cases h : 65 ≤ c.toNat ∧ c.toNat ≤ 90
  · exact Or.inl ⟨h.1, h.2, jsToLower_upper h.1 h.2⟩
  · exact Or.inr ⟨h, jsToLower_id h⟩

theorem jsToLower_eq_underscore {c : Char}
    (h : jsToLowerAscii c = '_') : c = '_' := by
  rcases jsToLower_cases c with ⟨h1, _, h3⟩ | ⟨_, hid⟩
  · exfalso
    rw [h] at h3
    have h95 : (95 : Nat) = c.toNat + 32 := h3
    omega
  · exact hid.symm.trans h

theorem jsToLower_ne_underscore {c : Char} (h : c ≠ '_') :
    jsToLowerAscii c ≠ '_' :=
  fun hh => h (jsToLower_eq_underscore hh)

theorem jsToLower_fixed_of_isLowerKept {c : Char}
    (h : isLowerKept c = true) : jsToLowerAscii c = c := by
  apply jsToLower_id
  intro hu
  simp only [isLowerKept, Bool.or_eq_true, Bool.and_eq_true,
    decide_eq_true_eq, beq_iff_eq] at h
  rcases h with ((⟨ha, _⟩ | ⟨hd, hd9⟩) | hus) | hhy
  · have h97 : 97 ≤ c.toNat := ha
    omega
  · have h48 : 48 ≤ c.toNat := hd
    have h57 : c.toNat ≤ 57 := hd9
    omega
  · subst hus
    exact absurd hu.2 (by decide)
  · subst hhy
    exact absurd hu.1 (by decide)

theorem isLowerKept_of_isKept_jsToLower {c : Char}
    (h : isKeptChar c = true) : isLowerKept (jsToLowerAscii c) = true := by
  rcases jsToLower_cases c with ⟨h1, h2, h3⟩ | ⟨hnot, hid⟩
  · have ha : 97 ≤ (jsToLowerAscii c).toNat := by rw [h3]; omega
    have hb : (jsToLowerAscii c).toNat ≤ 122 := by rw [h3]; omega
    have ha2 : 'a' ≤ jsToLowerAscii c := ha
    have hb2 : jsToLowerAscii c ≤ 'z' := hb
    simp [isLowerKept, ha2, hb2]
  · rw [hid]
    have hcontra : ¬('A' ≤ c ∧ c ≤ 'Z') := fun hu => hnot ⟨hu.1, hu.2⟩
    simp only [isKeptChar, Bool.or_eq_true, Bool.and_eq_true,
      decide_eq_true_eq, beq_iff_eq] at h
    simp only [isLowerKept, Bool.or_eq_true, Bool.and_eq_true,
      decide_eq_true_eq, beq_iff_eq]
    tauto

theorem isKept_of_isLowerKept {c : Char} (h : isLowerKept c = true) :
    isKeptChar c = true := by
  simp only [isLowerKept, Bool.or_eq_true, Bool.and_eq_true,
    decide_eq_true_eq, beq_iff_eq] at h
  simp only [isKeptChar, Bool.or_eq_true, Bool.and_eq_true,
    decide_eq_true_eq, beq_iff_eq]
  tauto

theorem replace_all_kept (l : List Char) :
    ∀ c ∈ replaceDisallowed l, isKeptChar c = true := by
  intro c hc
  rcases List.mem_map.mp hc with ⟨d, _, hd⟩
  by_cases hk : isKeptChar d = true
  · rw [← hd, if_pos hk]
    exact hk
  · rw [← hd, if_neg hk]
    decide

theorem replace_id_of_kept (l : List Char)
    (h : ∀ c ∈ l, isKeptChar c = true) : replaceDisallowed l = l := by
  have heq : l.map (fun c => if isKeptChar c then c else '_') = l.map id :=
    List.map_congr_left (fun c hc => by rw [if_pos (h c hc)]; rfl)
  rw [replaceDisallowed, heq, List.map_id]

theorem head_dropWhile_ne (p : Char → Bool) :
    ∀ (l : List Char) (a : Char),
      (l.dropWhile p).head? = some a → p a = false := by
  intro l
  induction l with
  | nil => intro a h; simp [List.dropWhile] at h
  | cons c cs ih =>
    intro a h
    rw [List.dropWhile_cons] at h
    by_cases hp : p c = true
    · rw [if_pos hp] at h
      exact ih a h
    · rw [if_neg hp] at h
      simp only [List.head?_cons, Option.some_inj] at h
      rw [← h]
      simpa using hp

theorem dropWhile_eq_self_of_head (p : Char → Bool) (l : List Char)
    (h : ∀ a, l.head? = some a → p a = false) : l.dropWhile p = l := by
  cases l with
  | nil => rfl
  | cons c cs =>
    rw [List.dropWhile_cons, if_neg]
    simp [h c rfl]

theorem collapse_head (l : List Char) :
    (collapseUnderscores l).head? = l.head? := by
  cases l with
  | nil => rw [collapseUnderscores]
  | cons c cs =>
    rw [collapseUnderscores]
    by_cases hc : c = '_'
    · rw [if_pos (by simp [hc])]
      simp [hc]
    · rw [if_neg (by simp [hc])]
      rfl

theorem collapse_mem (l : List Char) :
    ∀ c ∈ collapseUnderscores l, c ∈ l ∨ c = '_' := by
  induction l using collapseUnderscores.induct with
  | case1 =>
    intro c hc
    rw [collapseUnderscores] at hc
    simp at hc
  | case2 c cs hc ih =>
    intro d hd
    rw [collapseUnderscores, if_pos hc] at hd
    rcases List.mem_cons.mp hd with h1 | h2
    · exact Or.inr h1
    · rcases ih d h2 with hmem | hu
      · exact Or.inl (List.mem_cons_of_mem c
          (List.Sublist.mem hmem (List.dropWhile_sublist _)))
      · exact Or.inr hu
  | case3 c cs hc ih =>
    intro d hd
    rw [collapseUnderscores, if_neg hc] at hd
    rcases List.mem_cons.mp hd with h1 | h2
    · exact Or.inl (h1 ▸ List.mem_cons_self c cs)
    · rcases ih d h2 with hmem | hu
      · exact Or.inl (List.mem_cons_of_mem c hmem)
      · exact Or.inr hu

theorem collapse_chain (l : List Char) :
    (collapseUnderscores l).Chain' (fun a b => ¬(a = '_' ∧ b = '_')) := by
  induction l using collapseUnderscores.induct with
  | case1 => rw [collapseUnderscores]; exact List.chain'_nil
  | case2 c cs hc ih =>
    rw [collapseUnderscores, if_pos hc, List.chain'_cons']
    refine ⟨?_, ih⟩
    intro b hb
    rw [collapse_head] at hb
    have hbne := head_dropWhile_ne _ _ b hb
    simp only [beq_eq_false_iff_ne, ne_eq] at hbne
    intro hand
    exact hbne hand.2
  | case3 c cs hc ih =>
    rw [collapseUnderscores, if_neg hc, List.chain'_cons']
    refine ⟨?_, ih⟩
    intro b _
    intro hand
    exact hc (by simp [hand.1])

theorem collapse_id (l : List Char)
    (h : l.Chain' (fun a b => ¬(a = '_' ∧ b = '_'))) :
    collapseUnderscores l = l := by
  induction l using collapseUnderscores.induct with
  | case1 => rw [collapseUnderscores]
  | case2 c cs hc ih =>
    have hcu : c = '_' := by simpa using hc
    rw [List.chain'_cons'] at h
    have hdw : cs.dropWhile (fun d => d == '_') = cs := by
      apply dropWhile_eq_self_of_head
      intro a ha
      have ha2 : a ≠ '_' := fun hEq => h.1 a ha ⟨hcu, hEq⟩
      simp [ha2]
    rw [hdw] at ih
    rw [collapseUnderscores, if_pos hc, hdw, ih h.2, hcu]
  | case3 c cs hc ih =>
    rw [List.chain'_cons'] at h
    rw [collapseUnderscores, if_neg hc, ih h.2]

theorem trimFront_suffix (l : List Char) : trimFront l <:+ l :=
  List.dropWhile_suffix _

theorem trimBack_prefixOf (l : List Char) : trimBack l <+: l := by
  rw [trimBack]
  have h1 : l.reverse.dropWhile (fun c => c == '_') <:+ l.reverse :=
    List.dropWhile_suffix _
  have h2 := List.reverse_prefix.mpr h1
  rwa [List.reverse_reverse] at h2

theorem prefix_head (p l : List Char) (h : p <+: l) :
    p.head? = none ∨ p.head? = l.head? := by
  rcases h with ⟨t, rfl⟩
  cases p with
  | nil => exact Or.inl rfl
  | cons c cs => exact Or.inr rfl

theorem trimFront_head (l : List Char) (a : Char)
    (h : (trimFront l).head? = some a) : a ≠ '_' := by
  have hx := head_dropWhile_ne (fun c => c == '_') l a h
  simpa using hx

theorem trimBack_getLast (l : List Char) (a : Char)
    (h : (trimBack l).getLast? = some a) : a ≠ '_' := by
  rw [trimBack, ← List.head?_reverse, List.reverse_reverse] at h
  have hx := head_dropWhile_ne (fun c => c == '_') l.reverse a h
  simpa using hx

theorem trimFront_id (l : List Char)
    (h : ∀ a, l.head? = some a → a ≠ '_') : trimFront l = l := by
  apply dropWhile_eq_self_of_head
  intro a ha
  simp only [beq_eq_false_iff_ne, ne_eq]
  exact h a ha

theorem trimBack_id (l : List Char)
    (h : ∀ a, l.getLast? = some a → a ≠ '_') : trimBack l = l := by
  have hd : l.reverse.dropWhile (fun c => c == '_') = l.reverse := by
    apply dropWhile_eq_self_of_head
    intro a ha
    rw [List.head?_reverse] at ha
    simp only [beq_eq_false_iff_ne, ne_eq]
    exact h a ha
  rw [trimBack, hd, List.reverse_reverse]

theorem sanitizeChars_all_lowerKept (l : List Char) :
    ∀ c ∈ sanitizeChars l, isLowerKept c = true := by
  intro c hc
  rw [sanitizeChars] at hc
  rcases List.mem_map.mp hc with ⟨d, hd, rfl⟩
  apply isLowerKept_of_isKept_jsToLower
  have hd1 : d ∈ trimFront (collapseUnderscores (replaceDisallowed l)) :=
    List.Sublist.mem hd (trimBack_prefixOf _).sublist
  have hd2 : d ∈ collapseUnderscores (replaceDisallowed l) :=
    List.Sublist.mem hd1 (trimFront_suffix _).sublist
  rcases collapse_mem _ d hd2 with hmem | hu
  · exact replace_all_kept l d hmem
  · rw [hu]
    decide

theorem sanitizeChars_chain (l : List Char) :
    (sanitizeChars l).Chain' (fun a b => ¬(a = '_' ∧ b = '_')) := by
  rw [sanitizeChars, List.chain'_map]
  have h1 := collapse_chain (replaceDisallowed l)
  have h2 := h1.suffix (trimFront_suffix _)
  have h3 := h2.prefix (trimBack_prefixOf _)
  exact h3.imp (fun a b hR hand =>
    hR ⟨jsToLower_eq_underscore hand.1, jsToLower_eq_underscore hand.2⟩)

theorem sanitizeChars_head (l : List Char) (a : Char)
    (h : (sanitizeChars l).head? = some a) : a ≠ '_' := by
  rw [sanitizeChars, List.head?_map] at h
  cases hm : (trimUnderscores (collapseUnderscores
      (replaceDisallowed l))).head? with
  | none => rw [hm] at h; exact Option.noConfusion h
  | some b =>
    rw [hm] at h
    simp only [Option.map_some', Option.some.injEq] at h
    have hb : b ≠ '_' := by
      rcases prefix_head _ _ (trimBack_prefixOf (trimFront
          (collapseUnderscores (replaceDisallowed l)))) with hn | he
      · rw [trimUnderscores] at hm
        rw [hm] at hn
        exact Option.noConfusion hn
      · rw [trimUnderscores] at hm
        rw [hm] at he
        exact trimFront_head _ b he.symm
    rw [← h]
    exact jsToLower_ne_underscore hb

theorem sanitizeChars_last (l : List Char) (a : Char)
    (h : (sanitizeChars l).getLast? = some a) : a ≠ '_' := by
  rw [sanitizeChars, List.getLast?_map] at h
  cases hm : (trimUnderscores (collapseUnderscores
      (replaceDisallowed l))).getLast? with
  | none => rw [hm] at h; exact Option.noConfusion h
  | some b =>
    rw [hm] at h
    simp only [Option.map_some', Option.some.injEq] at h
    have hb : b ≠ '_' := by
      rw [trimUnderscores] at hm
      exact trimBack_getLast _ b hm
    rw [← h]
    exact jsToLower_ne_underscore hb

theorem sanitizeChars_idem (l : List Char) :
    sanitizeChars (sanitizeChars l) = sanitizeChars l := by
  have hkept : ∀ c ∈ sanitizeChars l, isKeptChar c = true :=
    fun c hc => isKept_of_isLowerKept (sanitizeChars_all_lowerKept l c hc)
  have h1 : replaceDisallowed (sanitizeChars l) = sanitizeChars l :=
    replace_id_of_kept _ hkept
  have h2 : collapseUnderscores (sanitizeChars l) = sanitizeChars l :=
    collapse_id _ (sanitizeChars_chain l)
  have h3f : trimFront (sanitizeChars l) = sanitizeChars l :=
    trimFront_id _ (fun a ha => sanitizeChars_head l a ha)
  have h3b : trimBack (sanitizeChars l) = sanitizeChars l :=
    trimBack_id _ (fun a ha => sanitizeChars_last l a ha)
  have h4 : (sanitizeChars l).map jsToLowerAscii = sanitizeChars l := by
    have hfix : ∀ c ∈ sanitizeChars l, jsToLowerAscii c = id c :=
      fun c hc =>
        jsToLower_fixed_of_isLowerKept (sanitizeChars_all_lowerKept l c hc)
    rw [List.map_congr_left hfix, List.map_id]
  calc sanitizeChars (sanitizeChars l)
      = (trimUnderscores (collapseUnderscores
          (replaceDisallowed (sanitizeChars l)))).map jsToLowerAscii := rfl
    _ = (trimUnderscores (sanitizeChars l)).map jsToLowerAscii := by
          rw [h1, h2]
    _ = (sanitizeChars l).map jsToLowerAscii := by
          rw [trimUnderscores, h3f, h3b]
    _ = sanitizeChars l := h4

/-- Claim C9 (counterexample): `sanitizeStepName "!"` is the empty string —
`"!"` is replaced by `"_"`, which trimming then removes — and the empty
string does not match `[a-z0-9_-]+`, so the output does not always match
that pattern. -/
theorem sanitizeStepName_pattern_counterexample :
    sanitizeStepName "!" = ""
    ∧ matchesSanPattern (sanitizeStepName "!") = false := by
  have h : sanitizeStepName "!" = "" := by
    show String.mk (sanitizeChars ['!']) = ""
    rw [show sanitizeChars ['!']
        = (trimUnderscores (collapseUnderscores ['_'])).map jsToLowerAscii
      from rfl]
    rw [show collapseUnderscores ['_']
        = '_' :: collapseUnderscores ([].dropWhile (fun d => d == '_')) by
      rw [collapseUnderscores]; rfl]
    rw [show collapseUnderscores ([].dropWhile (fun d => d == '_')) = [] by
      rw [show ([].dropWhile (fun d => d == '_') : List Char) = [] from rfl,
        collapseUnderscores]]
    rfl
  exact ⟨h, by rw [h]; decide⟩

/-- Claim C9 (amended): `sanitizeStepName` is idempotent — applying it twice
yields the same output as once — and for every input every character of the
output is in the class `[a-z0-9_-]` (the output matches `[a-z0-9_-]*`; it
is empty, not matching `[a-z0-9_-]+`, exactly when the input has no kept
character). -/
theorem sanitizeStepName_idempotent_pattern (s : String) :
    sanitizeStepName (sanitizeStepName s) = sanitizeStepName s
    ∧ (sanitizeStepName s).data.all isLowerKept = true := by
  constructor
  · show String.mk (sanitizeChars (String.mk (sanitizeChars s.data)).data)
      = String.mk (sanitizeChars s.data)
    rw [show (String.mk (sanitizeChars s.data)).data
      = sanitizeChars s.data from rfl]
    rw [sanitizeChars_idem]
  · rw [show (sanitizeStepName s).data = sanitizeChars s.data from rfl]
    rw [List.all_eq_true]
    exact fun c hc => sanitizeChars_all_lowerKept s.data c hc

end BBPL
